import Mathlib

/-!
# Verification of the FinRepRAG incremental knowledge-base core

Shallow embedding, in Lean 4, of the chunking, ledger and orchestration
logic of the repository (src/kb_builder.py, src/a.py,
src/knowledge_base_builder.py), together with theorems settling the
specification claims about them.

Text is modelled as `List Char` (a Python `str` is a sequence of code
points indexed by integers); Python dicts used as metadata bundles are
modelled as association lists with Python's `dict.update` semantics;
fallible operations return `Except`/`Option`.
-/

namespace FinRepRAG

/-! ## Python string primitives used by `_create_chunks`

`pyFind2 text c1 c2 a b` models Python's `text.find(c1+c2, a, b)` for a
two-character needle (the code only searches for `"\n\n"` and `". "`):
the lowest index `i` with `a ≤ i`, `i + 2 ≤ min b (len text)` and
`text[i] = c1`, `text[i+1] = c2`; `none` models the return value `-1`.
In every call site of the repository the start argument is non-negative,
so `Nat` arithmetic coincides with Python's. -/

def matches2 (text : List Char) (c1 c2 : Char) (i : Nat) : Bool :=
  text[i]? == some c1 && text[i+1]? == some c2

def pyFind2 (text : List Char) (c1 c2 : Char) (a b : Nat) : Option Nat :=
  (List.range' a (min b text.length - 1 - a)).find? (matches2 text c1 c2)

/-- Python's `str.strip()`: drop leading and trailing whitespace. -/
def pyStrip (l : List Char) : List Char :=
  ((l.dropWhile Char.isWhitespace).reverse.dropWhile Char.isWhitespace).reverse

/-- Python's `text[a:b]` for `0 ≤ a`, `0 ≤ b`. -/
def pySlice (text : List Char) (a b : Nat) : List Char :=
  (text.drop a).take (b - a)

/-! ## `PDFKnowledgeProcessor._create_chunks` (src/kb_builder.py)

`ChunkInfo` mirrors the dataclass of the same name.  `chunk_id` is drawn
from `uuid.uuid4()`; the draws are modelled by an oracle `ids : Nat → String`
giving the id of the n-th chunk created.  The page/section estimators
mirror `_estimate_page_number` and `_find_section_title`. -/

structure ChunkInfo where
  chunk_id : String
  content : List Char
  start_index : Nat
  end_index : Nat
  page_number : Option Nat
  section_title : Option String
deriving Repr, DecidableEq

/-- Metadata bundles: Python dict with string keys; values are strings or
integers (`year`), see `extract_metadata`. -/
inductive MetaVal where
  | str (s : String)
  | nat (n : Nat)
deriving Repr, DecidableEq

abbrev Dict := List (String × MetaVal)

def estimatePageNumber (_position : Nat) (_metadata : Dict) : Option Nat :=
  none

def findSectionTitle (_position : Nat) (_text : List Char) (_metadata : Dict) :
    Option String :=
  none

/-- The `end_pos` computation of one iteration of the `_create_chunks`
loop: nominal end clamped to the text length; if strictly inside the
text, prefer the first `"\n\n"` found in the window
`[end_pos - chunk_size//2, end_pos + chunk_size//2)`, then the first
`". "` there (cutting one past the period), else the hard cut. -/
def cutPoint (chunk_size : Nat) (text : List Char) (current_pos : Nat) : Nat :=
  let end_pos := min (current_pos + chunk_size) text.length
  if end_pos < text.length then
    match pyFind2 text '\n' '\n' (end_pos - chunk_size / 2) (end_pos + chunk_size / 2) with
    | some next_para => next_para
    | none =>
      match pyFind2 text '.' ' ' (end_pos - chunk_size / 2) (end_pos + chunk_size / 2) with
      | some next_sentence => next_sentence + 1
      | none => end_pos
  else end_pos

/-- The chunk built in one iteration of the loop at position `pos`,
with cut `e` and id drawn for the `n`-th chunk. -/
def mkChunk (ids : Nat → String) (text : List Char) (metadata : Dict)
    (pos e n : Nat) : ChunkInfo :=
  { chunk_id := ids n
    content := pyStrip (pySlice text pos e)
    start_index := pos
    end_index := e
    page_number := estimatePageNumber pos metadata
    section_title := findSectionTitle pos text metadata }

/-- The `while current_pos < len(text)` loop of `_create_chunks`, with an
explicit fuel so that the definition is structurally recursive and
computable by the kernel.  `createChunksFrom_congr` below shows the
result does not depend on the fuel once `len text - pos ≤ fuel`, so the
fuel is only a termination device, not a semantic one. -/
def createChunksFrom (chunk_size chunk_overlap : Nat) (ids : Nat → String)
    (text : List Char) (metadata : Dict) : Nat → Nat → Nat → List ChunkInfo
  | _pos, _n, 0 => []
  | pos, n, fuel + 1 =>
    if pos < text.length then
      let e := cutPoint chunk_size text pos
      mkChunk ids text metadata pos e n ::
        createChunksFrom chunk_size chunk_overlap ids text metadata
          (max (pos + 1) (e - chunk_overlap)) (n + 1) fuel
    else []

/-- `_create_chunks(text, metadata)` on a processor configured with
`chunk_size` and `chunk_overlap`. -/
def create_chunks (chunk_size chunk_overlap : Nat) (ids : Nat → String)
    (text : List Char) (metadata : Dict) : List ChunkInfo :=
  createChunksFrom chunk_size chunk_overlap ids text metadata 0 0 text.length

/-! ## Characterization of `pyFind2` -/

theorem find?_range'_first (p : Nat → Bool) :
    ∀ n a j, (List.range' a n).find? p = some j →
      ∀ k, a ≤ k → k < j → p k = false := by
  intro n
  induction n with
  | zero => intro a j h; simp [List.range'] at h
  | succ n ih =>
    intro a j h k hak hkj
    rw [List.range'_succ] at h
    by_cases hpa : p a
    · rw [List.find?_cons_of_pos _ hpa] at h
      injection h with h
      omega
    · rw [List.find?_cons_of_neg _ hpa] at h
      rcases Nat.eq_or_lt_of_le hak with heq | hlt
      · subst heq; exact Bool.eq_false_iff.mpr hpa
      · exact ih (a + 1) j h k hlt hkj

theorem pyFind2_eq_some {text : List Char} {c1 c2 : Char} {a b j : Nat}
    (h : pyFind2 text c1 c2 a b = some j) :
    a ≤ j ∧ j + 2 ≤ min b text.length ∧ matches2 text c1 c2 j = true ∧
      ∀ k, a ≤ k → k < j → matches2 text c1 c2 k = false := by
  have hmem := List.mem_of_find?_eq_some h
  rw [List.mem_range'_1] at hmem
  have hp := List.find?_some h
  have hfirst := find?_range'_first _ _ _ _ h
  exact ⟨hmem.1, by omega, hp, hfirst⟩

theorem pyFind2_eq_none {text : List Char} {c1 c2 : Char} {a b : Nat}
    (h : pyFind2 text c1 c2 a b = none) :
    ∀ k, a ≤ k → k + 2 ≤ min b text.length → matches2 text c1 c2 k = false := by
  intro k hak hk2
  rw [pyFind2, List.find?_eq_none] at h
  exact Bool.eq_false_iff.mpr (h k (List.mem_range'_1.mpr ⟨hak, by omega⟩))

/-- If a match exists in the search range, `pyFind2` cannot return `none`. -/
theorem pyFind2_ne_none {text : List Char} {c1 c2 : Char} {a b k : Nat}
    (hak : a ≤ k) (hk2 : k + 2 ≤ min b text.length)
    (hm : matches2 text c1 c2 k = true) :
    pyFind2 text c1 c2 a b ≠ none := by
  intro h
  rw [pyFind2_eq_none h k hak hk2] at hm
  exact Bool.false_ne_true hm

/-! ## Basic properties of the chunking loop -/

/-- The next loop position strictly exceeds the current one: the `+1`
floor in `max(current_pos + 1, end_pos - chunk_overlap)` guarantees
forward progress. -/
theorem nextPos_gt (pos e ov : Nat) : pos < max (pos + 1) (e - ov) :=
  Nat.lt_of_lt_of_le (Nat.lt_succ_self pos) (Nat.le_max_left _ _)

/-- The fuel argument of `createChunksFrom` is irrelevant once it is at
least `text.length - pos`: with sufficient fuel the function computes the
exact result of the (terminating) Python `while` loop. -/
theorem createChunksFrom_congr (cs ov : Nat) (ids : Nat → String)
    (text : List Char) (md : Dict) :
    ∀ f1 f2 pos n, text.length - pos ≤ f1 → text.length - pos ≤ f2 →
      createChunksFrom cs ov ids text md pos n f1 =
        createChunksFrom cs ov ids text md pos n f2 := by
  intro f1
  induction f1 with
  | zero =>
    intro f2 pos n h1 h2
    have hpos : ¬ pos < text.length := by omega
    cases f2 with
    | zero => rfl
    | succ f2 => simp [createChunksFrom, hpos]
  | succ f1 ih =>
    intro f2 pos n h1 h2
    cases f2 with
    | zero =>
      have hpos : ¬ pos < text.length := by omega
      simp [createChunksFrom, hpos]
    | succ f2 =>
      by_cases hpos : pos < text.length
      · simp only [createChunksFrom, if_pos hpos]
        have hnext := nextPos_gt pos (cutPoint cs text pos) ov
        exact congrArg _ (ih f2 _ (n + 1) (by omega) (by omega))
      · simp [createChunksFrom, hpos]

/-- Each loop iteration consumes one unit of fuel, so the number of
chunks is bounded by the fuel. -/
theorem createChunksFrom_length_le (cs ov : Nat) (ids : Nat → String)
    (text : List Char) (md : Dict) :
    ∀ fuel pos n, (createChunksFrom cs ov ids text md pos n fuel).length ≤ fuel := by
  intro fuel
  induction fuel with
  | zero => intro pos n; simp [createChunksFrom]
  | succ fuel ih =>
    intro pos n
    by_cases hpos : pos < text.length
    · simp only [createChunksFrom, if_pos hpos, List.length_cons]
      exact Nat.succ_le_succ (ih _ _)
    · simp [createChunksFrom, hpos]

/-! ## The cut rule, stated declaratively

`CutOk cs text pos e` states, in the words of the specification (with
"nearest" corrected to "first", i.e. lowest index), how the cut `e` of
the chunk starting at `pos` is chosen: nominal end clamped to the text
length; if strictly inside the text, the first paragraph break whose two
characters fit inside the window
`[pos + cs - cs/2, min (pos + cs + cs/2) (len text))` is the cut;
otherwise the first sentence terminator there gives the cut one past the
period; otherwise the nominal end is the cut. -/

def ParaAt (text : List Char) (j : Nat) : Prop :=
  matches2 text '\n' '\n' j = true

def SentAt (text : List Char) (j : Nat) : Prop :=
  matches2 text '.' ' ' j = true

def InWindow (cs : Nat) (text : List Char) (pos j : Nat) : Prop :=
  pos + cs - cs / 2 ≤ j ∧ j + 2 ≤ min (pos + cs + cs / 2) text.length

def CutOk (cs : Nat) (text : List Char) (pos e : Nat) : Prop :=
  if pos + cs < text.length then
    (∃ j, InWindow cs text pos j ∧ ParaAt text j ∧
        (∀ k, InWindow cs text pos k → k < j → ¬ ParaAt text k) ∧ e = j) ∨
    ((∀ k, InWindow cs text pos k → ¬ ParaAt text k) ∧
      ∃ j, InWindow cs text pos j ∧ SentAt text j ∧
        (∀ k, InWindow cs text pos k → k < j → ¬ SentAt text k) ∧ e = j + 1) ∨
    ((∀ k, InWindow cs text pos k → ¬ ParaAt text k) ∧
      (∀ k, InWindow cs text pos k → ¬ SentAt text k) ∧ e = pos + cs)
  else e = text.length

theorem cutPoint_eq_of_lt {cs : Nat} {text : List Char} {pos : Nat}
    (h0 : pos + cs < text.length) :
    cutPoint cs text pos =
      match pyFind2 text '\n' '\n' (pos + cs - cs / 2) (pos + cs + cs / 2) with
      | some next_para => next_para
      | none =>
        match pyFind2 text '.' ' ' (pos + cs - cs / 2) (pos + cs + cs / 2) with
        | some next_sentence => next_sentence + 1
        | none => pos + cs := by
  have hmin : min (pos + cs) text.length = pos + cs := by omega
  simp only [cutPoint, hmin, if_pos h0]

theorem cutPoint_eq_of_ge {cs : Nat} {text : List Char} {pos : Nat}
    (h0 : ¬ pos + cs < text.length) :
    cutPoint cs text pos = text.length := by
  have hmin : min (pos + cs) text.length = text.length := by omega
  simp only [cutPoint, hmin, if_neg (lt_irrefl text.length)]

/-- The code's cut obeys the declarative cut rule. -/
theorem cutPoint_spec (cs : Nat) (text : List Char) (pos : Nat) :
    CutOk cs text pos (cutPoint cs text pos) := by
  unfold CutOk
  by_cases h0 : pos + cs < text.length
  · rw [if_pos h0, cutPoint_eq_of_lt h0]
    rcases hp : pyFind2 text '\n' '\n' (pos + cs - cs / 2) (pos + cs + cs / 2) with _ | j
    · have hnp := pyFind2_eq_none hp
      rcases hs : pyFind2 text '.' ' ' (pos + cs - cs / 2) (pos + cs + cs / 2) with _ | s
      · have hns := pyFind2_eq_none hs
        refine Or.inr (Or.inr ⟨?_, ?_, rfl⟩)
        · intro k hk hpk
          unfold ParaAt at hpk
          rw [hnp k hk.1 hk.2] at hpk
          exact Bool.false_ne_true hpk
        · intro k hk hsk
          unfold SentAt at hsk
          rw [hns k hk.1 hk.2] at hsk
          exact Bool.false_ne_true hsk
      · obtain ⟨ha, hb, hm, hfirst⟩ := pyFind2_eq_some hs
        refine Or.inr (Or.inl ⟨?_, s, ⟨ha, hb⟩, hm, ?_, rfl⟩)
        · intro k hk hpk
          unfold ParaAt at hpk
          rw [hnp k hk.1 hk.2] at hpk
          exact Bool.false_ne_true hpk
        · intro k hk hks hsk
          unfold SentAt at hsk
          rw [hfirst k hk.1 hks] at hsk
          exact Bool.false_ne_true hsk
    · obtain ⟨ha, hb, hm, hfirst⟩ := pyFind2_eq_some hp
      refine Or.inl ⟨j, ⟨ha, hb⟩, hm, ?_, rfl⟩
      intro k hk hkj hpk
      unfold ParaAt at hpk
      rw [hfirst k hk.1 hkj] at hpk
      exact Bool.false_ne_true hpk
  · rw [if_neg h0, cutPoint_eq_of_ge h0]

/-- With a positive chunk size, every cut lies strictly beyond the
current position and within the text. -/
theorem cutPoint_bounds {cs : Nat} (hcs : 1 ≤ cs) {text : List Char} {pos : Nat}
    (hpos : pos < text.length) :
    pos < cutPoint cs text pos ∧ cutPoint cs text pos ≤ text.length := by
  have h := cutPoint_spec cs text pos
  unfold CutOk at h
  by_cases h0 : pos + cs < text.length
  · rw [if_pos h0] at h
    rcases h with ⟨j, ⟨hw1, hw2⟩, -, -, he⟩ | ⟨-, j, ⟨hw1, hw2⟩, -, -, he⟩ | ⟨-, -, he⟩ <;>
      omega
  · rw [if_neg h0] at h
    omega

/-- Monotonicity of consecutive cuts: if the next start position `pos'`
satisfies `pos + 1 ≤ pos'` and `cut(pos) - overlap ≤ pos'` (as the loop
sets it), the next cut is at least the current one. -/
theorem cutPoint_mono {cs ov : Nat} (hcs : 1 ≤ cs) (hov : ov < cs)
    {text : List Char} {pos pos' : Nat}
    (hpos : pos < text.length)
    (hp1 : pos + 1 ≤ pos') (hp2 : cutPoint cs text pos - ov ≤ pos') :
    cutPoint cs text pos ≤ cutPoint cs text pos' := by
  have H := cutPoint_spec cs text pos
  have H' := cutPoint_spec cs text pos'
  have hetop := (cutPoint_bounds hcs hpos).2
  unfold CutOk at H H'
  by_cases h0' : pos' + cs < text.length
  · have h0 : pos + cs < text.length := by omega
    rw [if_pos h0] at H
    rw [if_pos h0'] at H'
    rcases H' with ⟨j', ⟨hw1', hw2'⟩, hpj', -, he'⟩ | ⟨hnp', j', ⟨hw1', hw2'⟩, hsj', -, he'⟩ |
      ⟨-, -, he'⟩
    · -- next cut is a paragraph break at j'
      rw [he']
      by_contra hcon
      push_neg at hcon
      rcases H with ⟨j, ⟨hw1, hw2⟩, -, hfirst, he⟩ | ⟨hnp, j, ⟨hw1, hw2⟩, -, -, he⟩ |
        ⟨hnp, -, he⟩
      · exact hfirst j' ⟨by omega, by omega⟩ (by omega) hpj'
      · exact hnp j' ⟨by omega, by omega⟩ hpj'
      · exact hnp j' ⟨by omega, by omega⟩ hpj'
    · -- next cut is one past a sentence terminator at j'
      rw [he']
      by_contra hcon
      push_neg at hcon
      rcases H with ⟨j, ⟨hw1, hw2⟩, hpj, -, he⟩ | ⟨hnp, j, ⟨hw1, hw2⟩, -, hfirstS, he⟩ |
        ⟨-, hns, he⟩
      · by_cases hja : pos' + cs - cs / 2 ≤ j
        · exact hnp' j ⟨hja, by omega⟩ hpj
        · omega
      · exact hfirstS j' ⟨by omega, by omega⟩ (by omega) hsj'
      · exact hns j' ⟨by omega, by omega⟩ hsj'
    · -- next cut is the hard cut pos' + cs
      omega
  · rw [if_neg h0'] at H'
    omega

/-! ## Structure of the produced chunk list -/

theorem createChunksFrom_cons {cs ov : Nat} {ids : Nat → String}
    {text : List Char} {md : Dict} {pos n fuel : Nat}
    (hpos : pos < text.length) (hfuel : 0 < fuel) :
    createChunksFrom cs ov ids text md pos n fuel =
      mkChunk ids text md pos (cutPoint cs text pos) n ::
        createChunksFrom cs ov ids text md
          (max (pos + 1) (cutPoint cs text pos - ov)) (n + 1) (fuel - 1) := by
  cases fuel with
  | zero => omega
  | succ fuel => simp [createChunksFrom, hpos]

theorem createChunksFrom_nil {cs ov : Nat} {ids : Nat → String}
    {text : List Char} {md : Dict} {pos n fuel : Nat}
    (hpos : ¬ pos < text.length) :
    createChunksFrom cs ov ids text md pos n fuel = [] := by
  cases fuel with
  | zero => rfl
  | succ fuel => simp [createChunksFrom, hpos]

/-- Every produced chunk starts at or after the loop entry position,
starts inside the text, and its recorded cut is `cutPoint` of its
recorded start. -/
theorem createChunksFrom_shape (cs ov : Nat) (ids : Nat → String)
    (text : List Char) (md : Dict) :
    ∀ fuel pos n, ∀ c ∈ createChunksFrom cs ov ids text md pos n fuel,
      pos ≤ c.start_index ∧ c.start_index < text.length ∧
        c.end_index = cutPoint cs text c.start_index ∧
        c.content = pyStrip (pySlice text c.start_index c.end_index) ∧
        c.page_number = none ∧ c.section_title = none := by
  intro fuel
  induction fuel with
  | zero => intro pos n c hc; simp [createChunksFrom] at hc
  | succ fuel ih =>
    intro pos n c hc
    by_cases hpos : pos < text.length
    · rw [createChunksFrom_cons hpos (Nat.succ_pos fuel)] at hc
      rcases List.mem_cons.mp hc with rfl | hc

      · exact ⟨Nat.le_refl _, hpos, rfl, rfl, rfl, rfl⟩
      · have h := ih _ _ c hc
        have : pos < max (pos + 1) (cutPoint cs text pos - ov) := nextPos_gt ..
        exact ⟨by omega, h.2.1, h.2.2.1, h.2.2.2⟩
    · rw [createChunksFrom_nil hpos] at hc
      simp at hc

/-- The offsets invariant along the list: with `1 ≤ chunk_size` and
`chunk_overlap < chunk_size`, chunks from position `pos` have
`pos ≤ start < end ≤ len` and both offsets are non-decreasing between
consecutive chunks. -/
theorem createChunksFrom_invariant {cs ov : Nat} (hcs : 1 ≤ cs) (hov : ov < cs)
    (ids : Nat → String) (text : List Char) (md : Dict) :
    ∀ fuel pos n, text.length - pos ≤ fuel →
      (∀ c ∈ createChunksFrom cs ov ids text md pos n fuel,
        pos ≤ c.start_index ∧ c.start_index < c.end_index ∧
          c.end_index ≤ text.length) ∧
      List.Chain'
        (fun a b => a.start_index ≤ b.start_index ∧ a.end_index ≤ b.end_index)
        (createChunksFrom cs ov ids text md pos n fuel) := by
  intro fuel
  induction fuel with
  | zero =>
    intro pos n hf
    constructor
    · intro c hc; simp [createChunksFrom] at hc
    · simp [createChunksFrom]
  | succ fuel ih =>
    intro pos n hf
    by_cases hpos : pos < text.length
    · have hcut := cutPoint_bounds hcs hpos
      set pos' := max (pos + 1) (cutPoint cs text pos - ov) with hpos'
      have hstep : pos < pos' := nextPos_gt ..
      have hrec := ih pos' (n + 1) (by omega)
      rw [createChunksFrom_cons hpos (Nat.succ_pos fuel)]
      constructor
      · intro c hc
        rcases List.mem_cons.mp hc with rfl | hc
        · exact ⟨Nat.le_refl _, hcut.1, hcut.2⟩
        · have h := hrec.1 c hc
          exact ⟨by omega, h.2⟩
      · rw [List.chain'_cons']
        refine ⟨?_, hrec.2⟩
        intro b hb
        simp only [Nat.succ_sub_one] at hb
        rw [← hpos'] at hb
        rcases hhd : createChunksFrom cs ov ids text md pos' (n + 1) fuel with _ | ⟨c0, tl⟩
        · rw [hhd] at hb; simp at hb
        · rw [hhd] at hb
          simp only [Nat.add_sub_cancel, List.head?_cons, Option.mem_def,
            Option.some.injEq] at hb
          subst hb
          by_cases hpos2 : pos' < text.length
          · have hc0 : c0 ∈ createChunksFrom cs ov ids text md pos' (n + 1) fuel := by
              rw [hhd]; exact List.mem_cons_self ..
            have hsh := createChunksFrom_shape cs ov ids text md fuel pos' (n + 1) c0 hc0
            have hhd2 : 0 < fuel := by
              by_contra hc
              have : fuel = 0 := by omega
              subst this
              simp [createChunksFrom] at hhd
            rw [createChunksFrom_cons hpos2 hhd2] at hhd
            have hc0eq : c0 = mkChunk ids text md pos' (cutPoint cs text pos') (n + 1) :=
              (List.cons.injEq .. ▸ hhd).1.symm
            subst hc0eq
            refine ⟨by simpa [mkChunk] using Nat.le_of_lt hstep, ?_⟩
            show cutPoint cs text pos ≤ cutPoint cs text pos'
            exact cutPoint_mono hcs hov hpos (by omega) (by omega)
          · rw [createChunksFrom_nil hpos2] at hhd
            simp at hhd
    · rw [createChunksFrom_nil hpos]
      exact ⟨fun c hc => by simp at hc, List.chain'_nil⟩

/-! ## Concrete data for witnesses and counterexamples -/

def demoIds : Nat → String := fun n => toString n

def demoMd : Dict := []

/-- `"aaaaa\n\naa\n\naaaaaaaaaa"`: paragraph breaks at indices 5 and 9;
with `chunk_size = 10` the first window is `[5, 15)` and the nominal end
is 10. -/
def demoText : List Char :=
  ['a', 'a', 'a', 'a', 'a', '\n', '\n', 'a', 'a', '\n', '\n',
   'a', 'a', 'a', 'a', 'a', 'a', 'a', 'a', 'a', 'a']

def shortText : List Char := ['a', 'b', 'c', 'd', 'e']

/-! ## Claim C4 — termination of the chunking loop -/

/-- C4: for every text of length `L`, `target_size ≥ 1` and
`0 ≤ overlap < target_size`, the chunking loop terminates after at most
`L` iterations (any fuel of at least `L` computes the same, already
complete, chunk list of length at most `L`), because the next start
position `max (current_pos + 1) (end - overlap)` strictly exceeds the
current position. -/
theorem claim_C4_chunking_terminates (cs ov : Nat) (_hcs : 1 ≤ cs) (_hov : ov < cs)
    (ids : Nat → String) (text : List Char) (md : Dict) :
    (create_chunks cs ov ids text md).length ≤ text.length ∧
    (∀ fuel, text.length ≤ fuel →
      createChunksFrom cs ov ids text md 0 0 fuel =
        create_chunks cs ov ids text md) ∧
    (∀ pos e, pos < max (pos + 1) (e - ov)) := by
  refine ⟨createChunksFrom_length_le cs ov ids text md text.length 0 0, ?_,
    fun pos e => nextPos_gt pos e ov⟩
  intro fuel hf
  exact createChunksFrom_congr cs ov ids text md fuel text.length 0 0 (by omega)
    (by omega)

/-- Witness for C4 at `chunk_size = 10`, `overlap = 3` on `demoText`. -/
theorem claim_C4_witness :
    (create_chunks 10 3 demoIds demoText demoMd).length ≤ demoText.length ∧
    (∀ fuel, demoText.length ≤ fuel →
      createChunksFrom 10 3 demoIds demoText demoMd 0 0 fuel =
        create_chunks 10 3 demoIds demoText demoMd) ∧
    (∀ pos e, pos < max (pos + 1) (e - 3)) :=
  claim_C4_chunking_terminates 10 3 (by decide) (by decide) demoIds demoText demoMd

/-! ## Claim C5 — offset invariants -/

/-- C5: every chunk produced by `_create_chunks` (with the documented
preconditions `target_size ≥ 1`, `0 ≤ overlap < target_size`) satisfies
`0 ≤ start_index < end_index ≤ len text`, and across the returned list
both start and end offsets are monotonically non-decreasing. -/
theorem claim_C5_offsets_invariant (cs ov : Nat) (hcs : 1 ≤ cs) (hov : ov < cs)
    (ids : Nat → String) (text : List Char) (md : Dict) :
    (∀ c ∈ create_chunks cs ov ids text md,
      0 ≤ c.start_index ∧ c.start_index < c.end_index ∧
        c.end_index ≤ text.length) ∧
    List.Chain'
      (fun a b => a.start_index ≤ b.start_index ∧ a.end_index ≤ b.end_index)
      (create_chunks cs ov ids text md) := by
  have h := createChunksFrom_invariant hcs hov ids text md text.length 0 0
    (by omega)
  exact ⟨fun c hc => ⟨Nat.zero_le _, (h.1 c hc).2⟩, h.2⟩

/-- Witness for C5 at `chunk_size = 10`, `overlap = 3` on `demoText`. -/
theorem claim_C5_witness :
    (∀ c ∈ create_chunks 10 3 demoIds demoText demoMd,
      0 ≤ c.start_index ∧ c.start_index < c.end_index ∧
        c.end_index ≤ demoText.length) ∧
    List.Chain'
      (fun a b => a.start_index ≤ b.start_index ∧ a.end_index ≤ b.end_index)
      (create_chunks 10 3 demoIds demoText demoMd) :=
  claim_C5_offsets_invariant 10 3 (by decide) (by decide) demoIds demoText demoMd

/-! ## Claim C9 — page and section provenance is never populated -/

/-- C9: every produced chunk has `page_number = none` and
`section_title = none`, for every input text and metadata, because the
page and section estimators unconditionally return `none`. -/
theorem claim_C9_no_page_or_section (cs ov : Nat) (ids : Nat → String)
    (text : List Char) (md : Dict) (p : Nat) (m : Dict) (t : List Char) :
    ((create_chunks cs ov ids text md).all
      (fun c => c.page_number == none && c.section_title == none)) = true ∧
    estimatePageNumber p m = none ∧
    findSectionTitle p t m = none := by
  refine ⟨?_, rfl, rfl⟩
  rw [List.all_eq_true]
  intro c hc
  have h := createChunksFrom_shape cs ov ids text md text.length 0 0 c hc
  rw [h.2.2.2.2.1, h.2.2.2.2.2]
  rfl

/-! ## Claim C2 — how the cut point is chosen -/

/-- Counterexample to C2 as stated: on `demoText` with
`target_size = 10`, `overlap = 0`, the first chunk's nominal end is 10
and the search window is `[5, 15)`.  The window contains paragraph
breaks at 5 and 9; the one nearest to the nominal end is at 9
(distance 1 versus distance 5), yet the code cuts at 5, because
Python's `str.find` returns the lowest index in the range, not the
nearest to the window's centre. -/
theorem claim_C2_counterexample :
    (create_chunks 10 0 demoIds demoText demoMd).head?.map
      ChunkInfo.end_index = some 5 ∧
    matches2 demoText '\n' '\n' 9 = true ∧
    5 ≤ 9 ∧ 9 + 2 ≤ min 15 demoText.length ∧
    10 - 9 < 10 - (5 : Nat) := by decide

/-- C2 amended: each chunk's cut point is chosen as follows: the nominal
end is `current_pos + target_size` clamped to `len text`; if the nominal
end is strictly before the end of the text, the **first** (lowest-index)
paragraph break fitting in the window
`[nominal - target_size/2, nominal + target_size/2)` is used as the cut,
otherwise the **first** sentence terminator there is used with the cut
one character after the period, otherwise the cut is exactly at the
nominal end (`CutOk` states exactly this rule). -/
theorem claim_C2_cut_rule (cs ov : Nat) (_hcs : 1 ≤ cs) (_hov : ov < cs)
    (ids : Nat → String) (text : List Char) (md : Dict) :
    ∀ c ∈ create_chunks cs ov ids text md,
      CutOk cs text c.start_index c.end_index := by
  intro c hc
  have h := createChunksFrom_shape cs ov ids text md text.length 0 0 c hc
  rw [h.2.2.1]
  exact cutPoint_spec cs text c.start_index

/-- Witness for C2 (amended) on the first chunk of `demoText`. -/
theorem claim_C2_witness : CutOk 10 demoText 0 5 :=
  claim_C2_cut_rule 10 0 (by decide) (by decide) demoIds demoText demoMd
    (mkChunk demoIds demoText demoMd 0 5 0) (by decide)

/-! ## Claim C3 — empty text and short text -/

/-- Counterexample to C3 as stated: `shortText` has length 5, which is
non-empty and strictly shorter than `target_size = 10`, and
`overlap = 3` satisfies `0 ≤ 3 < 10`, yet chunking returns four chunks,
not one: after the first chunk `[0, 5)` the loop resumes at
`max (0 + 1) (5 - 3) = 2 < 5`. -/
theorem claim_C3_counterexample :
    0 < shortText.length ∧ shortText.length < 10 ∧ 3 < 10 ∧
    (create_chunks 10 3 demoIds shortText demoMd).length = 4 ∧
    (create_chunks 10 3 demoIds shortText demoMd).length ≠ 1 := by decide

/-- C3 amended: chunking the empty string returns no chunks; for a
non-empty text shorter than `target_size` the **first** chunk spans the
whole text (its trimmed content is the trimmed text, offsets `0` and
`len text`), and when additionally `overlap = 0` it is the **only**
chunk. -/
theorem claim_C3_short_text (cs ov : Nat) (ids : Nat → String) (md : Dict)
    (text : List Char) (h0 : 0 < text.length) (h1 : text.length < cs) :
    create_chunks cs ov ids [] md = [] ∧
    (create_chunks cs ov ids text md).head? =
      some (mkChunk ids text md 0 text.length 0) ∧
    (mkChunk ids text md 0 text.length 0).content = pyStrip text ∧
    (ov = 0 →
      create_chunks cs ov ids text md = [mkChunk ids text md 0 text.length 0]) := by
  have hcut : cutPoint cs text 0 = text.length :=
    cutPoint_eq_of_ge (by omega)
  have hcons := @createChunksFrom_cons cs ov ids text md 0 0 text.length h0 h0
  rw [hcut] at hcons
  refine ⟨rfl, ?_, ?_, ?_⟩
  · rw [create_chunks, hcons]; rfl
  · simp [mkChunk, pySlice]
  · intro hov0
    subst hov0
    rw [create_chunks, hcons, Nat.sub_zero, Nat.max_eq_right h0,
      createChunksFrom_nil (lt_irrefl text.length)]

/-- Witness for C3 (amended) on `shortText` with `overlap = 0`. -/
theorem claim_C3_witness :
    create_chunks 10 0 demoIds [] demoMd = [] ∧
    (create_chunks 10 0 demoIds shortText demoMd).head? =
      some (mkChunk demoIds shortText demoMd 0 shortText.length 0) ∧
    (mkChunk demoIds shortText demoMd 0 shortText.length 0).content =
      pyStrip shortText ∧
    (0 = 0 →
      create_chunks 10 0 demoIds shortText demoMd =
        [mkChunk demoIds shortText demoMd 0 shortText.length 0]) :=
  claim_C3_short_text 10 0 demoIds demoMd shortText (by decide) (by decide)

/-! ## Python dict semantics

`setKey d k v` models `d[k] = v` on a `dict` (unique keys, insertion
order): the first binding of `k` is replaced in place, otherwise the new
binding is appended.  `dictUpdate d other` models `d.update(other)`:
assign each of `other`'s items into `d`, in order. -/

def setKey {α : Type} : List (String × α) → String → α → List (String × α)
  | [], k, v => [(k, v)]
  | (k', v') :: rest, k, v =>
    if k' = k then (k, v) :: rest else (k', v') :: setKey rest k v

def dictUpdate (d other : Dict) : Dict :=
  other.foldl (fun acc kv => setKey acc kv.1 kv.2) d

theorem setKey_lookup_self {α : Type} (d : List (String × α)) (k : String) (v : α) :
    (setKey d k v).lookup k = some v := by
  induction d with
  | nil => simp [setKey, List.lookup]
  | cons kv rest ih =>
    obtain ⟨k', v'⟩ := kv
    by_cases h : k' = k
    · simp [setKey, h, List.lookup]
    · have hne : (k == k') = false := beq_eq_false_iff_ne.mpr (Ne.symm h)
      simp only [setKey, if_neg h, List.lookup, hne]
      exact ih

theorem setKey_lookup_ne {α : Type} (d : List (String × α)) {k k' : String}
    (h : k' ≠ k) (v : α) : (setKey d k v).lookup k' = d.lookup k' := by
  induction d with
  | nil => simp [setKey, List.lookup, beq_eq_false_iff_ne.mpr h]
  | cons kv rest ih =>
    obtain ⟨k0, v0⟩ := kv
    by_cases h0 : k0 = k
    · subst h0
      simp [setKey, List.lookup, beq_eq_false_iff_ne.mpr h]
    · simp only [setKey, if_neg h0, List.lookup]
      cases hb : k' == k0 <;> simp [ih]

/-! ## The regex `(.+)_Annual_Report_(\d{4})\.pdf` under `re.match`

`re.match` anchors at the start only; `(.+)` is greedy and its `.` does
not cross a newline; `\d` is modelled by ASCII digits.  The match
succeeds iff the name splits as
`company ++ "_Annual_Report_" ++ 4 digits ++ ".pdf" ++ anything` with
`company` non-empty and newline-free; greediness picks the longest such
`company`. -/

def digitVal (c : Char) : Nat := c.toNat - '0'.toNat

def matchTail (l : List Char) : Option Nat :=
  let ds := (l.drop 15).take 4
  if l.take 15 = "_Annual_Report_".toList ∧ ds.length = 4 ∧
      ds.all Char.isDigit ∧ (l.drop 19).take 4 = ".pdf".toList then
    some (ds.foldl (fun a c => a * 10 + digitVal c) 0)
  else none

def parseAnnualReport (name : List Char) : Option (List Char × Nat) :=
  ((List.range' 1 name.length).reverse.find? (fun i =>
      !(name.take i).contains '\n' && (matchTail (name.drop i)).isSome)).bind
    (fun i => (matchTail (name.drop i)).map (fun y => (name.take i, y)))

/-! ## `PersistentKnowledgeBaseBuilder` (src/a.py)

A source file is identified by its listing name and the SHA-256 hex
digest of its bytes (`_compute_file_hash` is pure I/O over the file's
bytes; the digest is carried as an oracle value).  The Docling loader
pipeline (`DoclingLoader(...).load()`) is an external collaborator,
modelled as an oracle `load : FileInfo → Except PyErr (List Doc)`;
`datetime.now().isoformat()` is an oracle string `now`. -/

abbrev PyErr := String

structure FileInfo where
  name : String
  hash : String
deriving Repr, DecidableEq

structure Doc where
  page_content : String
  metadata : Dict
deriving Repr, DecidableEq

structure LedgerEntry where
  hash : String
  processed_date : String
  chunk_count : Nat
deriving Repr, DecidableEq

/-- The persisted `processing_history.json` object, a dict keyed by file
name. -/
abbrev Ledger := List (String × LedgerEntry)

/-- `extract_metadata` of `PersistentKnowledgeBaseBuilder`. -/
def extract_metadata (collection now : String) (filename file_hash : String) :
    Except PyErr Dict :=
  match parseAnnualReport filename.toList with
  | some (company, year) =>
    .ok [("company_name", .str (String.mk company)), ("year", .nat year),
         ("file_hash", .str file_hash), ("processed_date", .str now),
         ("collection", .str collection)]
  | none => .error (s!"Filename \x7bfilename\x7d doesn't match expected pattern")

/-- The skip condition of `process_document`:
`filename in self.processed_files and
 self.processed_files[filename]["hash"] == file_hash`. -/
def is_unchanged (mem : Ledger) (name hash : String) : Bool :=
  match mem.lookup name with
  | some entry => entry.hash == hash
  | none => false

/-- The non-skip path of `process_document`: load the document's chunks,
extract document metadata from the file name, and merge the metadata
into every chunk (`doc.metadata.update(metadata)`). -/
def freshDocs (load : FileInfo → Except PyErr (List Doc))
    (collection now : String) (f : FileInfo) : Except PyErr (List Doc) := do
  let docs ← load f
  let metadata ← extract_metadata collection now f.name f.hash
  pure (docs.map fun d => { d with metadata := dictUpdate d.metadata metadata })

/-- `process_document`: on success it returns the chunks and the updated
in-memory history (`self.processed_files[filename] = {...}` happens last,
so a raise leaves the history untouched). -/
def process_document (load : FileInfo → Except PyErr (List Doc))
    (collection now : String) (mem : Ledger) (f : FileInfo) :
    Except PyErr (List Doc × Ledger) :=
  if is_unchanged mem f.name f.hash then .ok ([], mem)
  else
    (freshDocs load collection now f).map fun ds =>
      (ds, setKey mem f.name ⟨f.hash, now, ds.length⟩)

/-- Externally visible effects of a run, in order of occurrence. -/
inductive Event where
  | fileProcessed (name : String) (chunks : Nat)
  | fileError (name : String)
  | indexWrite (docs : List Doc)
  | ledgerSave (mem : Ledger)
deriving Repr, DecidableEq

structure LoopOut where
  docs : List Doc
  mem : Ledger
  events : List Event
deriving Repr, DecidableEq

/-- The per-file loop of `build_or_update_knowledge_base`: each file is
processed under try/except — an exception is caught, logged and the loop
continues with the history unchanged. -/
def buildLoop (load : FileInfo → Except PyErr (List Doc))
    (collection now : String) : List FileInfo → Ledger → LoopOut
  | [], mem => ⟨[], mem, []⟩
  | f :: rest, mem =>
    match process_document load collection now mem f with
    | .ok (chunks, mem') =>
      let r := buildLoop load collection now rest mem'
      ⟨chunks ++ r.docs, r.mem, .fileProcessed f.name chunks.length :: r.events⟩
    | .error _ =>
      let r := buildLoop load collection now rest mem
      ⟨r.docs, r.mem, .fileError f.name :: r.events⟩

/-- The effect trace of one `build_or_update_knowledge_base` run starting
from persisted history `L0`: after the loop, if any new chunks exist they
are written to the vector index in one call, and only afterwards is the
history saved (`_save_processing_history`).  `indexOk = false` models the
index write raising: the exception propagates and the run stops there, so
no save event follows.  An empty folder raises before any effect. -/
def buildEvents (load : FileInfo → Except PyErr (List Doc))
    (collection now : String) (indexOk : Bool) (files : List FileInfo)
    (L0 : Ledger) : List Event :=
  if files.isEmpty then []
  else
    let r := buildLoop load collection now files L0
    if r.docs.isEmpty then r.events
    else r.events ++
      (.indexWrite r.docs :: if indexOk then [.ledgerSave r.mem] else [])

/-- The persisted history after a (possibly truncated) effect trace: each
`ledgerSave` atomically replaces the file's contents, other events do not
touch it. -/
def persistedAfter (L0 : Ledger) (evs : List Event) : Ledger :=
  evs.foldl (fun cur ev => match ev with | .ledgerSave m => m | _ => cur) L0

/-! ## Claim C1 — ledger write is a commit marker -/

theorem persistedAfter_no_save {L0 : Ledger} {evs : List Event}
    (h : ∀ m, Event.ledgerSave m ∉ evs) : persistedAfter L0 evs = L0 := by
  induction evs with
  | nil => rfl
  | cons ev rest ih =>
    cases ev with
    | ledgerSave m => exact absurd (List.mem_cons_self ..) (h m)
    | fileProcessed name k =>
      exact ih (fun m hm => h m (List.mem_cons_of_mem _ hm))
    | fileError name =>
      exact ih (fun m hm => h m (List.mem_cons_of_mem _ hm))
    | indexWrite d =>
      exact ih (fun m hm => h m (List.mem_cons_of_mem _ hm))

/-- The per-file loop only logs per-file events: it never writes the
index and never saves the ledger. -/
theorem buildLoop_events_plain (load : FileInfo → Except PyErr (List Doc))
    (collection now : String) :
    ∀ (files : List FileInfo) (mem : Ledger),
      ∀ e ∈ (buildLoop load collection now files mem).events,
        (∀ d, e ≠ .indexWrite d) ∧ (∀ m, e ≠ .ledgerSave m) := by
  intro files
  induction files with
  | nil => intro mem e he; simp [buildLoop] at he
  | cons f rest ih =>
    intro mem e he
    rw [buildLoop] at he
    rcases hp : process_document load collection now mem f with err | ⟨chunks, mem'⟩ <;>
      rw [hp] at he
    · rcases List.mem_cons.mp he with rfl | he
      · exact ⟨fun d => by simp, fun m => by simp⟩
      · exact ih mem e he
    · rcases List.mem_cons.mp he with rfl | he
      · exact ⟨fun d => by simp, fun m => by simp⟩
      · exact ih mem' e he

/-- In a list of the shape `A ++ [w, ledgerSave mf]` where `A` contains
no save and `w` is not a save, any decomposition `p ++ ledgerSave m :: q`
puts `w` inside `p`. -/
theorem save_split {w : Event} {mf : Ledger}
    (hw : ∀ m', w ≠ Event.ledgerSave m') :
    ∀ (A : List Event), (∀ m', Event.ledgerSave m' ∉ A) →
      ∀ (p q : List Event) (m : Ledger),
        p ++ Event.ledgerSave m :: q = A ++ [w, Event.ledgerSave mf] →
        w ∈ p := by
  intro A
  induction A with
  | nil =>
    intro _ p q m h
    cases p with
    | nil =>
      simp only [List.nil_append, List.cons.injEq] at h
      exact absurd h.1 (Ne.symm (hw m))
    | cons x p' =>
      cases p' with
      | nil =>
        simp only [List.cons_append, List.nil_append, List.cons.injEq] at h
        exact h.1 ▸ List.mem_cons_self ..
      | cons y p'' =>
        exfalso
        simp only [List.cons_append, List.nil_append, List.cons.injEq] at h
        have := h.2.2
        simpa using congrArg List.length this
  | cons a A' ih =>
    intro hA p q m h
    cases p with
    | nil =>
      simp only [List.nil_append, List.cons_append, List.cons.injEq] at h
      exact absurd (h.1 ▸ List.mem_cons_self ..) (hA m)
    | cons x p' =>
      simp only [List.cons_append, List.cons.injEq] at h
      exact List.mem_cons_of_mem _
        (ih (fun m' hm' => hA m' (List.mem_cons_of_mem _ hm')) p' q m h.2)

/-- C1: in every run of `build_or_update_knowledge_base`, the
processing-history file is saved only after the run's chunks have been
written to the vector index.  (i) A crash prefix of the effect trace that
does not contain the ledger save leaves the persisted history mapping
every file name exactly as before the run (previous entry or no entry,
never the in-flight version); (ii) any ledger save in the trace is
preceded by the index write of the run's chunks; (iii) if the index
write fails, no ledger save occurs at all. -/
theorem claim_C1_ledger_write_after_index (load : FileInfo → Except PyErr (List Doc))
    (collection now : String) (indexOk : Bool) (files : List FileInfo)
    (L0 : Ledger) :
    (∀ p q, buildEvents load collection now indexOk files L0 = p ++ q →
      (∀ m, Event.ledgerSave m ∉ p) →
      ∀ name, (persistedAfter L0 p).lookup name = L0.lookup name) ∧
    (∀ p m q,
      buildEvents load collection now indexOk files L0 =
        p ++ Event.ledgerSave m :: q →
      Event.indexWrite (buildLoop load collection now files L0).docs ∈ p) ∧
    (indexOk = false →
      ∀ m, Event.ledgerSave m ∉ buildEvents load collection now indexOk files L0) := by
  have hplain := buildLoop_events_plain load collection now files L0
  refine ⟨?_, ?_, ?_⟩
  · intro p q _ hnosave name
    rw [persistedAfter_no_save hnosave]
  · intro p m q hsplit
    unfold buildEvents at hsplit
    by_cases hemp : files.isEmpty
    · rw [if_pos hemp] at hsplit
      exact absurd hsplit.symm (List.append_ne_nil_of_right_ne_nil _ (by simp))
    · rw [if_neg hemp] at hsplit
      by_cases hdocs : (buildLoop load collection now files L0).docs.isEmpty
      · rw [if_pos hdocs] at hsplit
        exfalso
        have hmem : Event.ledgerSave m ∈
            (buildLoop load collection now files L0).events := by
          rw [hsplit]
          exact List.mem_append_right _ (List.mem_cons_self ..)
        exact ((hplain _ hmem).2 m) rfl
      · rw [if_neg hdocs] at hsplit
        cases indexOk with
        | true =>
          exact @save_split (Event.indexWrite _) _ (by simp) _
            (fun m' hm' => ((hplain _ hm').2 m') rfl) p q m hsplit.symm
        | false =>
          exfalso
          have hmem0 : Event.ledgerSave m ∈ p ++ Event.ledgerSave m :: q :=
            List.mem_append_right _ (List.mem_cons_self ..)
          rw [← hsplit] at hmem0
          rcases List.mem_append.mp hmem0 with hmem | hmem
          · exact ((hplain _ hmem).2 m) rfl
          · rcases List.mem_cons.mp hmem with heq | hmem
            · simp at heq
            · simp at hmem
  · intro hio m hmem
    subst hio
    unfold buildEvents at hmem
    by_cases hemp : files.isEmpty
    · rw [if_pos hemp] at hmem; simp at hmem
    · rw [if_neg hemp] at hmem
      by_cases hdocs : (buildLoop load collection now files L0).docs.isEmpty
      · rw [if_pos hdocs] at hmem
        exact ((hplain _ hmem).2 m) rfl
      · rw [if_neg hdocs] at hmem
        rcases List.mem_append.mp hmem with hmem | hmem
        · exact ((hplain _ hmem).2 m) rfl
        · simp at hmem

/-! ## Claim C6 — idempotent second run -/

theorem is_unchanged_iff (mem : Ledger) (name hash : String) :
    is_unchanged mem name hash = true ↔
      ∃ e, mem.lookup name = some e ∧ e.hash = hash := by
  unfold is_unchanged
  rcases h : mem.lookup name with _ | e
  · simp
  · simp [beq_iff_eq]

theorem process_document_skip {load : FileInfo → Except PyErr (List Doc)}
    {collection now : String} {mem : Ledger} {f : FileInfo}
    (hu : is_unchanged mem f.name f.hash = true) :
    process_document load collection now mem f = .ok ([], mem) := by
  unfold process_document
  rw [if_pos hu]

theorem process_document_fresh {load : FileInfo → Except PyErr (List Doc)}
    {collection now : String} {mem : Ledger} {f : FileInfo}
    (hu : ¬ is_unchanged mem f.name f.hash = true) :
    process_document load collection now mem f =
      (freshDocs load collection now f).map fun ds =>
        (ds, setKey mem f.name ⟨f.hash, now, ds.length⟩) := by
  unfold process_document
  rw [if_neg hu]

/-- A run of `process_document` that errors does so in the fresh path. -/
theorem process_document_error {load : FileInfo → Except PyErr (List Doc)}
    {collection now : String} {mem : Ledger} {f : FileInfo} {e : PyErr}
    (h : process_document load collection now mem f = .error e) :
    is_unchanged mem f.name f.hash = false ∧
      freshDocs load collection now f = .error e := by
  by_cases hu : is_unchanged mem f.name f.hash = true
  · rw [process_document_skip hu] at h
    exact absurd h (by simp)
  · rw [process_document_fresh hu] at h
    rcases hf : freshDocs load collection now f with e' | ds <;> rw [hf] at h
    · refine ⟨Bool.eq_false_iff.mpr hu, ?_⟩
      simp only [Except.map, Except.error.injEq] at h
      rw [h]
    · simp [Except.map] at h

theorem process_document_ok {load : FileInfo → Except PyErr (List Doc)}
    {collection now : String} {mem : Ledger} {f : FileInfo}
    {chunks : List Doc} {mem' : Ledger}
    (h : process_document load collection now mem f = .ok (chunks, mem')) :
    (is_unchanged mem f.name f.hash = true ∧ chunks = [] ∧ mem' = mem) ∨
    (is_unchanged mem f.name f.hash = false ∧
      freshDocs load collection now f = .ok chunks ∧
      mem' = setKey mem f.name ⟨f.hash, now, chunks.length⟩) := by
  by_cases hu : is_unchanged mem f.name f.hash = true
  · rw [process_document_skip hu] at h
    replace h := (Except.ok.injEq _ _ ▸ h :
      (([] : List Doc), mem) = (chunks, mem'))
    exact Or.inl ⟨hu, (Prod.mk.injEq .. ▸ h).1.symm, (Prod.mk.injEq .. ▸ h).2.symm⟩
  · rw [process_document_fresh hu] at h
    rcases hf : freshDocs load collection now f with e' | ds <;> rw [hf] at h
    · simp [Except.map] at h
    · simp only [Except.map, Except.ok.injEq, Prod.mk.injEq] at h
      refine Or.inr ⟨Bool.eq_false_iff.mpr hu, ?_, ?_⟩
      · rw [h.1]
      · rw [← h.1, ← h.2]

/-- `freshDocs` returning no chunks means the loader returned no
chunks. -/
theorem freshDocs_ok_nil {load : FileInfo → Except PyErr (List Doc)}
    {collection now : String} {f : FileInfo}
    (h : freshDocs load collection now f = .ok []) : load f = .ok [] := by
  unfold freshDocs at h
  rcases hl : load f with e | docs <;> rw [hl] at h
  · simp [Bind.bind, Except.bind] at h
  · rcases he : extract_metadata collection now f.name f.hash with e | md <;>
      rw [he] at h
    · simp [Bind.bind, Except.bind, Functor.map, Except.map] at h
    · simp only [Bind.bind, Except.bind, Functor.map, Except.map, pure, Except.pure,
        Except.ok.injEq] at h
      rw [List.map_eq_nil_iff] at h
      rw [h]

/-- Files processed later in the loop never touch an earlier file's
ledger entry (distinct names). -/
theorem buildLoop_lookup_preserve (load : FileInfo → Except PyErr (List Doc))
    (collection now : String) :
    ∀ (files : List FileInfo) (mem : Ledger) (name : String),
      name ∉ files.map FileInfo.name →
      (buildLoop load collection now files mem).mem.lookup name =
        mem.lookup name := by
  intro files
  induction files with
  | nil => intro mem name _; rfl
  | cons f rest ih =>
    intro mem name hn
    simp only [List.map_cons, List.mem_cons, not_or] at hn
    rw [buildLoop]
    rcases hp : process_document load collection now mem f with e | ⟨chunks, mem'⟩
    · exact ih mem name hn.2
    · show (buildLoop load collection now rest mem').mem.lookup name = mem.lookup name
      rw [ih mem' name hn.2]
      rcases process_document_ok hp with ⟨-, -, rfl⟩ | ⟨-, -, rfl⟩
      · rfl
      · exact setKey_lookup_ne mem hn.1 _

/-- A file is settled with respect to a history: it is either unchanged
(matching ledger entry) or its fresh processing fails deterministically. -/
def Settled (load : FileInfo → Except PyErr (List Doc))
    (collection now : String) (mem : Ledger) (f : FileInfo) : Prop :=
  is_unchanged mem f.name f.hash = true ∨
    ∃ e, freshDocs load collection now f = .error e

/-- A loop over settled files produces no chunks and leaves the history
untouched. -/
theorem buildLoop_settled (load : FileInfo → Except PyErr (List Doc))
    (collection now : String) :
    ∀ (files : List FileInfo) (mem : Ledger),
      (∀ f ∈ files, Settled load collection now mem f) →
      (buildLoop load collection now files mem).docs = [] ∧
      (buildLoop load collection now files mem).mem = mem := by
  intro files
  induction files with
  | nil => intro mem _; exact ⟨rfl, rfl⟩
  | cons f rest ih =>
    intro mem hs
    have hf := hs f (List.mem_cons_self ..)
    rw [buildLoop]
    rcases hp : process_document load collection now mem f with e | ⟨chunks, mem'⟩
    · exact ih mem (fun g hg => hs g (List.mem_cons_of_mem _ hg))
    · rcases process_document_ok hp with ⟨-, rfl, rfl⟩ | ⟨hu, hfr, -⟩
      · have hr := ih mem' (fun g hg => hs g (List.mem_cons_of_mem _ hg))
        exact ⟨by simpa using hr.1, hr.2⟩
      · rcases hf with hf | ⟨e, hf⟩
        · rw [hu] at hf; exact absurd hf (by simp)
        · rw [hf] at hfr; exact absurd hfr (by simp)

/-- After one loop over files with distinct names, every file is settled
with respect to the resulting in-memory history. -/
theorem buildLoop_settles (load : FileInfo → Except PyErr (List Doc))
    (collection now : String) :
    ∀ (files : List FileInfo) (mem : Ledger),
      (files.map FileInfo.name).Nodup →
      ∀ f ∈ files,
        Settled load collection now (buildLoop load collection now files mem).mem f := by
  intro files
  induction files with
  | nil => intro mem _ f hf; simp at hf
  | cons g rest ih =>
    intro mem hnd f hf
    have hnd' : (rest.map FileInfo.name).Nodup := (List.nodup_cons.mp hnd).2
    have hgn : g.name ∉ rest.map FileInfo.name := (List.nodup_cons.mp hnd).1
    rw [buildLoop]
    rcases hp : process_document load collection now mem g with e | ⟨chunks, mem'⟩
    · rcases List.mem_cons.mp hf with rfl | hf
      · exact Or.inr ⟨e, (process_document_error hp).2⟩
      · exact ih mem hnd' f hf
    · show Settled load collection now (buildLoop load collection now rest mem').mem f
      rcases List.mem_cons.mp hf with rfl | hf
      · left
        rw [is_unchanged_iff]
        have hlp := buildLoop_lookup_preserve load collection now rest mem' f.name hgn
        rw [hlp]
        rcases process_document_ok hp with ⟨hu, -, hm2⟩ | ⟨-, -, hm2⟩ <;> rw [hm2]
        · exact (is_unchanged_iff mem f.name f.hash).mp hu
        · exact ⟨_, setKey_lookup_self mem f.name _, rfl⟩
      · exact ih mem' hnd' f hf

theorem persistedAfter_append (L0 : Ledger) (A B : List Event) :
    persistedAfter L0 (A ++ B) = persistedAfter (persistedAfter L0 A) B :=
  List.foldl_append ..

/-- The persisted history on disk after one full successful run. -/
def runPersisted (load : FileInfo → Except PyErr (List Doc))
    (collection now : String) (files : List FileInfo) (L0 : Ledger) : Ledger :=
  persistedAfter L0 (buildEvents load collection now true files L0)

/-- C6 (amended): the sole skip condition of `process_document` is
"a ledger entry exists for the file name with stored hash equal to the
current hash"; when it holds, processing returns no chunks and leaves
the history untouched, and when processing returns no chunks without it,
the loader itself produced no chunks.  Running the build twice over the
same folder (same names, hashes and loader results, distinct names)
yields on the second run: zero new chunks, no index write, no ledger
save, and an unchanged persisted history. -/
theorem claim_C6_second_run_idempotent (load : FileInfo → Except PyErr (List Doc))
    (collection now : String) (files : List FileInfo) (L0 : Ledger)
    (hnd : (files.map FileInfo.name).Nodup) :
    (∀ (mem : Ledger) (f : FileInfo),
      (is_unchanged mem f.name f.hash = true ↔
        ∃ e, mem.lookup f.name = some e ∧ e.hash = f.hash) ∧
      (is_unchanged mem f.name f.hash = true →
        process_document load collection now mem f = .ok ([], mem)) ∧
      (∀ mem', process_document load collection now mem f = .ok ([], mem') →
        is_unchanged mem f.name f.hash = true ∨ load f = .ok [])) ∧
    ((buildLoop load collection now files
        (runPersisted load collection now files L0)).docs = [] ∧
      (∀ d, Event.indexWrite d ∉
        buildEvents load collection now true files
          (runPersisted load collection now files L0)) ∧
      (∀ m, Event.ledgerSave m ∉
        buildEvents load collection now true files
          (runPersisted load collection now files L0)) ∧
      persistedAfter (runPersisted load collection now files L0)
        (buildEvents load collection now true files
          (runPersisted load collection now files L0)) =
        runPersisted load collection now files L0) := by
  refine ⟨?_, ?_⟩
  · intro mem f
    refine ⟨is_unchanged_iff mem f.name f.hash,
      fun hu => process_document_skip hu, ?_⟩
    intro mem' hok
    rcases process_document_ok hok with ⟨hu, -, -⟩ | ⟨-, hfr, -⟩
    · exact Or.inl hu
    · exact Or.inr (freshDocs_ok_nil hfr)
  · set P1 := runPersisted load collection now files L0 with hP1
    by_cases hemp : files.isEmpty
    · have hfe : files = [] := List.isEmpty_iff.mp hemp
      subst hfe
      refine ⟨rfl, ?_, ?_, ?_⟩
      · intro d hd; simp [buildEvents] at hd
      · intro m hm; simp [buildEvents] at hm
      · simp [buildEvents]; rfl
    · have hplain1 := buildLoop_events_plain load collection now files L0
      by_cases hdocs : (buildLoop load collection now files L0).docs.isEmpty
      · have hP1L0 : P1 = L0 := by
          rw [hP1, runPersisted]
          simp only [buildEvents]
          rw [if_neg hemp, if_pos hdocs]
          exact persistedAfter_no_save (fun m hm => ((hplain1 _ hm).2 m) rfl)
        rw [hP1L0]
        have hplain2 := hplain1
        have hE2 : buildEvents load collection now true files L0 =
            (buildLoop load collection now files L0).events := by
          simp only [buildEvents]
          rw [if_neg hemp, if_pos hdocs]
        refine ⟨List.isEmpty_iff.mp hdocs, ?_, ?_, ?_⟩
        · intro d hd
          rw [hE2] at hd
          exact ((hplain1 _ hd).1 d) rfl
        · intro m hm
          rw [hE2] at hm
          exact ((hplain1 _ hm).2 m) rfl
        · rw [hE2]
          exact persistedAfter_no_save (fun m hm => ((hplain1 _ hm).2 m) rfl)
      · have hP1m : P1 = (buildLoop load collection now files L0).mem := by
          rw [hP1, runPersisted]
          simp only [buildEvents]
          rw [if_neg hemp, if_neg hdocs]
          rw [persistedAfter_append]
          rfl
        have hsettle : ∀ f ∈ files, Settled load collection now P1 f := by
          rw [hP1m]
          exact buildLoop_settles load collection now files L0 hnd
        have hrun2 := buildLoop_settled load collection now files P1 hsettle
        have hplainP := buildLoop_events_plain load collection now files P1
        have hE2 : buildEvents load collection now true files P1 =
            (buildLoop load collection now files P1).events := by
          simp only [buildEvents]
          rw [if_neg hemp, if_pos (by rw [hrun2.1]; rfl)]
        refine ⟨hrun2.1, ?_, ?_, ?_⟩
        · intro d hd
          rw [hE2] at hd
          exact ((hplainP _ hd).1 d) rfl
        · intro m hm
          rw [hE2] at hm
          exact ((hplainP _ hm).2 m) rfl
        · rw [hE2]
          exact persistedAfter_no_save (fun m hm => ((hplainP _ hm).2 m) rfl)

/-! ## Concrete builder fixtures for witnesses and counterexamples -/

deriving instance DecidableEq for Except

def demoLoadEmpty : FileInfo → Except PyErr (List Doc) := fun _ => .ok []

def demoFile : FileInfo := ⟨"X_Annual_Report_2020.pdf", "h1"⟩

def demoDoc : Doc := ⟨"hello", [("source", .str "f")]⟩

def demoLoad1 : FileInfo → Except PyErr (List Doc) := fun _ => .ok [demoDoc]

def demoFile2 : FileInfo := ⟨"Acme_Annual_Report_2021.pdf", "h2"⟩

def demoMergedDoc : Doc :=
  ⟨"hello",
   [("source", .str "f"), ("company_name", .str "Acme"), ("year", .nat 2021),
    ("file_hash", .str "h2"), ("processed_date", .str "NOW"),
    ("collection", .str "cse")]⟩

def demoLedger1 : Ledger := [("Acme_Annual_Report_2021.pdf", ⟨"h2", "NOW", 1⟩)]

def demoPrefix : List Event :=
  [.fileProcessed "Acme_Annual_Report_2021.pdf" 1, .indexWrite [demoMergedDoc]]

/-- Witness for C1: a one-file run whose trace is
`[fileProcessed, indexWrite, ledgerSave]`; the crash prefix stopping
right after the index write leaves the empty persisted ledger unchanged,
and the index write precedes the save. -/
theorem claim_C1_witness :
    (persistedAfter [] demoPrefix).lookup demoFile2.name =
      ([] : Ledger).lookup demoFile2.name ∧
    Event.indexWrite (buildLoop demoLoad1 "cse" "NOW" [demoFile2] []).docs ∈
      demoPrefix := by
  have h := claim_C1_ledger_write_after_index demoLoad1 "cse" "NOW" true
    [demoFile2] []
  refine ⟨h.1 demoPrefix [Event.ledgerSave demoLedger1] (by decide) ?_
      demoFile2.name,
    h.2.1 demoPrefix demoLedger1 [] (by decide)⟩
  intro m hm
  rcases List.mem_cons.mp hm with heq | hm
  · exact Event.noConfusion heq
  · rcases List.mem_cons.mp hm with heq | hm
    · exact Event.noConfusion heq
    · exact (List.not_mem_nil _) hm

/-- Counterexample to C6 as stated: a new file (no ledger entry at all)
whose loader yields zero chunks also makes `process_document` return an
empty chunk list — so "returns an empty chunk list exactly when a
matching ledger entry exists" fails in the only-if direction. -/
theorem claim_C6_counterexample :
    is_unchanged [] demoFile.name demoFile.hash = false ∧
    process_document demoLoadEmpty "cse" "NOW" [] demoFile =
      .ok ([], [(demoFile.name, ⟨demoFile.hash, "NOW", 0⟩)]) := by decide

/-- Witness for C6 (amended) on a one-file folder. -/
theorem claim_C6_witness :
    (is_unchanged [] demoFile2.name demoFile2.hash = true ↔
      ∃ e, ([] : Ledger).lookup demoFile2.name = some e ∧
        e.hash = demoFile2.hash) ∧
    (buildLoop demoLoad1 "cse" "NOW" [demoFile2]
      (runPersisted demoLoad1 "cse" "NOW" [demoFile2] [])).docs = [] := by
  have h := claim_C6_second_run_idempotent demoLoad1 "cse" "NOW" [demoFile2] []
    (by decide)
  exact ⟨(h.1 [] demoFile2).1, h.2.1⟩

/-! ## Claim C7 — the metadata merge (`doc.metadata.update(metadata)`)

`KnowledgeBaseBuilder.extract_metadata` (src/knowledge_base_builder.py)
produces the document-level bundle; each chunk's bundle is merged with
Python's `dict.update`, whose semantics `dictUpdate` models. -/

def kb_extract_metadata (now : String) (filename : String) : Except PyErr Dict :=
  match parseAnnualReport filename.toList with
  | some (company, year) =>
    .ok [("company_name",
           .str (String.mk (company.map fun c => if c = '_' then ' ' else c))),
         ("year", .nat year), ("source", .str filename),
         ("processed_date", .str now)]
  | none => .error (s!"Filename \x7bfilename\x7d doesn't match expected pattern")

theorem foldl_setKey_lookup_not_mem (l : Dict) :
    ∀ (d : Dict) (k : String), k ∉ l.map Prod.fst →
      (l.foldl (fun acc kv => setKey acc kv.1 kv.2) d).lookup k = d.lookup k := by
  induction l with
  | nil => intro d k _; rfl
  | cons kv rest ih =>
    intro d k hk
    simp only [List.map_cons, List.mem_cons, not_or] at hk
    rw [List.foldl_cons, ih (setKey d kv.1 kv.2) k hk.2,
      setKey_lookup_ne d hk.1 kv.2]

/-- Counterexample to C7 as stated: document-level and chunk-level keys
can collide, and on collision the chunk-level value is overwritten.  A
chunk whose bundle already binds `"company_name"` loses that binding
when the document metadata (here from the file
`Acme_Corp_Annual_Report_2020.pdf`) is merged in. -/
theorem claim_C7_counterexample :
    kb_extract_metadata "NOW" "Acme_Corp_Annual_Report_2020.pdf" =
      .ok [("company_name", .str "Acme Corp"), ("year", .nat 2020),
           ("source", .str "Acme_Corp_Annual_Report_2020.pdf"),
           ("processed_date", .str "NOW")] ∧
    (dictUpdate [("company_name", MetaVal.str "chunk-level")]
        [("company_name", .str "Acme Corp"), ("year", .nat 2020),
         ("source", .str "Acme_Corp_Annual_Report_2020.pdf"),
         ("processed_date", .str "NOW")]).lookup "company_name" =
      some (MetaVal.str "Acme Corp") ∧
    some (MetaVal.str "Acme Corp") ≠ some (MetaVal.str "chunk-level") := by
  decide

/-- C7 amended: the merge is a plain `dict.update`, not a namespaced
union — document-level values win.  For every chunk bundle and every
document bundle with distinct keys: a chunk-level entry at a key not
bound by the document bundle is preserved, and a chunk-level entry at a
document-level key is overwritten with the document-level value. -/
theorem claim_C7_merge_overwrites (chunkMd : Dict) :
    ∀ (docMd : Dict), (docMd.map Prod.fst).Nodup → ∀ (k : String),
      (docMd.lookup k = none →
        (dictUpdate chunkMd docMd).lookup k = chunkMd.lookup k) ∧
      (∀ v, docMd.lookup k = some v →
        (dictUpdate chunkMd docMd).lookup k = some v) := by
  have main : ∀ (docMd chunkMd : Dict), (docMd.map Prod.fst).Nodup →
      ∀ (k : String),
      (docMd.lookup k = none →
        (dictUpdate chunkMd docMd).lookup k = chunkMd.lookup k) ∧
      (∀ v, docMd.lookup k = some v →
        (dictUpdate chunkMd docMd).lookup k = some v) := by
    intro docMd
    induction docMd with
    | nil =>
      intro chunkMd _ k
      exact ⟨fun _ => rfl, fun v hv => by simp [List.lookup] at hv⟩
    | cons kv rest ih =>
      intro chunkMd hnd k
      obtain ⟨k0, v0⟩ := kv
      simp only [List.map_cons, List.nodup_cons] at hnd
      by_cases hk : k = k0
      · subst hk
        constructor
        · intro hnone
          simp [List.lookup] at hnone
        · intro v hv
          simp only [List.lookup, beq_self_eq_true, Option.some.injEq] at hv
          subst hv
          show (rest.foldl (fun acc kv => setKey acc kv.1 kv.2)
            (setKey chunkMd k v0)).lookup k = some v0
          rw [foldl_setKey_lookup_not_mem rest (setKey chunkMd k v0) k hnd.1,
            setKey_lookup_self]
      · have hb : (k == k0) = false := beq_eq_false_iff_ne.mpr hk
        have hrest := ih (setKey chunkMd k0 v0) hnd.2 k
        constructor
        · intro hnone
          simp only [List.lookup, hb] at hnone
          show (dictUpdate (setKey chunkMd k0 v0) rest).lookup k =
            chunkMd.lookup k
          rw [hrest.1 hnone, setKey_lookup_ne chunkMd hk v0]
        · intro v hv
          simp only [List.lookup, hb] at hv
          show (dictUpdate (setKey chunkMd k0 v0) rest).lookup k = some v
          exact hrest.2 v hv
  intro docMd hnd k
  exact main docMd chunkMd hnd k

/-- Witness for C7 (amended): a chunk-level `"company_name"` binding is
overwritten by the document-level one. -/
theorem claim_C7_witness :
    (dictUpdate [("company_name", MetaVal.str "chunk-level")]
        [("company_name", .str "Acme Corp"), ("year", .nat 2020),
         ("source", .str "Acme_Corp_Annual_Report_2020.pdf"),
         ("processed_date", .str "NOW")]).lookup "company_name" =
      some (MetaVal.str "Acme Corp") :=
  (claim_C7_merge_overwrites [("company_name", MetaVal.str "chunk-level")]
      [("company_name", .str "Acme Corp"), ("year", .nat 2020),
       ("source", .str "Acme_Corp_Annual_Report_2020.pdf"),
       ("processed_date", .str "NOW")] (by decide) "company_name").2
    (MetaVal.str "Acme Corp") (by decide)

/-! ## Claim C8 — partial failure isolation
(`KnowledgeBaseBuilder.build_knowledge_base`, src/knowledge_base_builder.py) -/

/-- `KnowledgeBaseBuilder.process_document`: load the chunks, extract
metadata from the file name, merge it into every chunk. -/
def kb_process_document (load : FileInfo → Except PyErr (List Doc))
    (now : String) (f : FileInfo) : Except PyErr (List Doc) := do
  let docs ← load f
  let metadata ← kb_extract_metadata now f.name
  pure (docs.map fun d => { d with metadata := dictUpdate d.metadata metadata })

structure KBOut where
  docs : List Doc
  events : List Event
deriving Repr, DecidableEq

/-- The per-file loop of `build_knowledge_base`: per-file errors are
caught, logged and counted; the loop continues. -/
def kb_buildLoop (load : FileInfo → Except PyErr (List Doc))
    (now : String) : List FileInfo → KBOut
  | [] => ⟨[], []⟩
  | f :: rest =>
    match kb_process_document load now f with
    | .ok chunks =>
      let r := kb_buildLoop load now rest
      ⟨chunks ++ r.docs, .fileProcessed f.name chunks.length :: r.events⟩
    | .error _ =>
      let r := kb_buildLoop load now rest
      ⟨r.docs, .fileError f.name :: r.events⟩

/-- `build_knowledge_base`: raises only when the folder holds no PDF
files; otherwise the loop output is handed to the vector store. -/
def kb_build (load : FileInfo → Except PyErr (List Doc)) (now : String)
    (files : List FileInfo) : Except PyErr KBOut :=
  if files.isEmpty then .error (s!"No PDF files found")
  else .ok (kb_buildLoop load now files)

def isFileError : Event → Bool
  | .fileError _ => true
  | _ => false

/-- The chunks a file contributes to the run (none when its processing
raised). -/
def kb_resultChunks (load : FileInfo → Except PyErr (List Doc))
    (now : String) (f : FileInfo) : List Doc :=
  match kb_process_document load now f with
  | .ok ds => ds
  | .error _ => []

theorem kb_process_ok_of {load : FileInfo → Except PyErr (List Doc)}
    {now : String} {f : FileInfo} {ds0 : List Doc} {md : Dict}
    (hl : load f = .ok ds0)
    (hmd : kb_extract_metadata now f.name = .ok md) :
    kb_process_document load now f =
      .ok (ds0.map fun d => { d with metadata := dictUpdate d.metadata md }) := by
  unfold kb_process_document
  rw [hl]
  show (do
    let metadata ← kb_extract_metadata now f.name
    pure (ds0.map fun d =>
      { d with metadata := dictUpdate d.metadata metadata }) :
      Except PyErr (List Doc)) = _
  rw [hmd]
  rfl

theorem kb_process_error_of_name {load : FileInfo → Except PyErr (List Doc)}
    {now : String} {f : FileInfo} {ds0 : List Doc}
    (hl : load f = .ok ds0)
    (hbad : parseAnnualReport f.name.toList = none) :
    ∃ e, kb_process_document load now f = .error e := by
  unfold kb_process_document
  rw [hl]
  show (∃ e, (do
    let metadata ← kb_extract_metadata now f.name
    pure (ds0.map fun d =>
      { d with metadata := dictUpdate d.metadata metadata }) :
      Except PyErr (List Doc)) = .error e)
  unfold kb_extract_metadata
  rw [hbad]
  exact ⟨_, rfl⟩

theorem kb_buildLoop_docs (load : FileInfo → Except PyErr (List Doc))
    (now : String) :
    ∀ files : List FileInfo,
      (kb_buildLoop load now files).docs =
        files.flatMap (kb_resultChunks load now) := by
  intro files
  induction files with
  | nil => rfl
  | cons f rest ih =>
    rw [List.flatMap_cons, ← ih]
    show (kb_buildLoop load now (f :: rest)).docs = _
    rw [kb_buildLoop]
    unfold kb_resultChunks
    rcases hp : kb_process_document load now f with e | ds <;> rfl

theorem kb_buildLoop_err_count (load : FileInfo → Except PyErr (List Doc))
    (now : String) :
    ∀ files : List FileInfo,
      (kb_buildLoop load now files).events.countP isFileError =
        files.countP fun f => !(kb_process_document load now f).isOk := by
  intro files
  induction files with
  | nil => rfl
  | cons f rest ih =>
    rw [kb_buildLoop]
    rcases hp : kb_process_document load now f with e | ds
    · rw [List.countP_cons_of_pos _ _ (by rfl),
        List.countP_cons_of_pos _ _ (by rw [hp]; rfl), ih]
    · rw [List.countP_cons_of_neg _ _ (by simp [isFileError]),
        List.countP_cons_of_neg _ _
          (by rw [hp]; simp [Except.isOk, Except.toBool]), ih]

theorem kb_buildLoop_err_mem (load : FileInfo → Except PyErr (List Doc))
    (now : String) :
    ∀ (files : List FileInfo) (k : FileInfo), k ∈ files →
      (kb_process_document load now k).isOk = false →
      Event.fileError k.name ∈ (kb_buildLoop load now files).events := by
  intro files
  induction files with
  | nil => intro k hk; simp at hk
  | cons f rest ih =>
    intro k hk hfail
    rw [kb_buildLoop]
    rcases hp : kb_process_document load now f with e | ds
    · rcases List.mem_cons.mp hk with rfl | hk
      · exact List.mem_cons_self ..
      · exact List.mem_cons_of_mem _ (ih k hk hfail)
    · rcases List.mem_cons.mp hk with rfl | hk
      · rw [hp] at hfail; simp [Except.isOk, Except.toBool] at hfail
      · exact List.mem_cons_of_mem _ (ih k hk hfail)

/-- C8: with N input files of which exactly one has a name that fails the
`"<company>_Annual_Report_<year>.pdf"` pattern (and the loader succeeds
on every file), the build does not abort: the per-file error is caught at
the loop level and logged, the run's failure count (number of logged
per-file errors) is one, every other file's processing succeeds, and the
run's chunks are exactly the concatenation of the other N-1 files'
chunks (the failing file contributes none). -/
theorem claim_C8_partial_failure_isolated
    (load : FileInfo → Except PyErr (List Doc)) (now : String)
    (files : List FileInfo) (k : FileInfo)
    (hk : k ∈ files) (hnd : files.Nodup)
    (hkbad : parseAnnualReport k.name.toList = none)
    (hothers : ∀ f ∈ files, f ≠ k →
      (parseAnnualReport f.name.toList).isSome = true)
    (hload : ∀ f ∈ files, ∃ ds, load f = .ok ds) :
    kb_build load now files = .ok (kb_buildLoop load now files) ∧
    (kb_buildLoop load now files).events.countP isFileError = 1 ∧
    Event.fileError k.name ∈ (kb_buildLoop load now files).events ∧
    (∀ f ∈ files, f ≠ k → ∃ ds, kb_process_document load now f = .ok ds) ∧
    (kb_buildLoop load now files).docs =
      files.flatMap (kb_resultChunks load now) ∧
    kb_resultChunks load now k = [] := by
  obtain ⟨dsk, hlk⟩ := hload k hk
  obtain ⟨ek, hek⟩ := kb_process_error_of_name hlk hkbad
  have hokf : ∀ f ∈ files, f ≠ k → ∃ ds, kb_process_document load now f = .ok ds := by
    intro f hf hne
    obtain ⟨ds0, hl0⟩ := hload f hf
    obtain ⟨⟨c, y⟩, hcy⟩ := Option.isSome_iff_exists.mp (hothers f hf hne)
    have hmd : kb_extract_metadata now f.name =
        .ok [("company_name",
               .str (String.mk (c.map fun ch => if ch = '_' then ' ' else ch))),
             ("year", .nat y), ("source", .str f.name),
             ("processed_date", .str now)] := by
      unfold kb_extract_metadata
      rw [hcy]
    exact ⟨_, kb_process_ok_of hl0 hmd⟩
  refine ⟨?_, ?_, ?_, hokf, kb_buildLoop_docs load now files, ?_⟩
  · unfold kb_build
    rw [if_neg]
    intro hemp
    rw [List.isEmpty_iff.mp hemp] at hk
    simp at hk
  · rw [kb_buildLoop_err_count]
    have hcg : files.countP (fun f => !(kb_process_document load now f).isOk) =
        files.countP (· == k) := by
      apply List.countP_congr
      intro f hf
      by_cases hne : f = k
      · subst hne
        rw [hek]
        simp [Except.isOk, Except.toBool]
      · obtain ⟨ds, hds⟩ := hokf f hf hne
        rw [hds]
        simp [Except.isOk, Except.toBool, hne]
    rw [hcg, ← List.count_eq_countP, List.count_eq_one_of_mem hnd hk]
  · exact kb_buildLoop_err_mem load now files k hk (by rw [hek]; rfl)
  · unfold kb_resultChunks
    rw [hek]

def demoBad : FileInfo := ⟨"badname.pdf", "h3"⟩

/-- Witness for C8: two files, one with an unparseable name; the build
succeeds, logs exactly one per-file error, and keeps the good file's
chunks. -/
theorem claim_C8_witness :
    kb_build demoLoad1 "NOW" [demoFile2, demoBad] =
      .ok (kb_buildLoop demoLoad1 "NOW" [demoFile2, demoBad]) ∧
    (kb_buildLoop demoLoad1 "NOW" [demoFile2, demoBad]).events.countP
      isFileError = 1 ∧
    Event.fileError demoBad.name ∈
      (kb_buildLoop demoLoad1 "NOW" [demoFile2, demoBad]).events ∧
    (∀ f ∈ [demoFile2, demoBad], f ≠ demoBad →
      ∃ ds, kb_process_document demoLoad1 "NOW" f = .ok ds) ∧
    (kb_buildLoop demoLoad1 "NOW" [demoFile2, demoBad]).docs =
      [demoFile2, demoBad].flatMap (kb_resultChunks demoLoad1 "NOW") ∧
    kb_resultChunks demoLoad1 "NOW" demoBad = [] := by
  refine claim_C8_partial_failure_isolated demoLoad1 "NOW" [demoFile2, demoBad]
    demoBad (by decide) (by decide) (by decide) ?_ ?_
  · intro f hf hne
    rcases List.mem_cons.mp hf with rfl | hf
    · decide
    · rcases List.mem_cons.mp hf with rfl | hf
      · exact absurd rfl hne
      · exact absurd hf (List.not_mem_nil f)
  · intro f _
    exact ⟨[demoDoc], rfl⟩

/-! ## Claim C10 — `get_chunk_source_info` (src/kb_builder.py) -/

structure ProcessingResult where
  markdown_content : List Char
  source_path : String
  metadata : Dict
  success : Bool
  document_id : String
  chunks : List ChunkInfo
  error_messages : List String
deriving Repr, DecidableEq

/-- The dictionary `get_chunk_source_info` builds for a hit.
`result.metadata["title"]` is a dict subscript; it is modelled as the
association-list lookup. -/
structure SourceInfo where
  document_title : Option MetaVal
  document_path : String
  page_number : Option Nat
  section_title : Option String
  chunk_content : List Char
  document_id : String
deriving Repr, DecidableEq

def mkSourceInfo (r : ProcessingResult) (c : ChunkInfo) : SourceInfo :=
  { document_title := r.metadata.lookup "title"
    document_path := r.source_path
    page_number := c.page_number
    section_title := c.section_title
    chunk_content := c.content
    document_id := r.document_id }

/-- `get_chunk_source_info`: scan results in order, and within each
result scan its chunks in order; return the info of the first chunk
whose id matches, `none` (Python `None`) when no chunk matches. -/
def get_chunk_source_info (chunk_id : String) :
    List ProcessingResult → Option SourceInfo
  | [] => none
  | r :: rest =>
    match r.chunks.find? (fun c => c.chunk_id == chunk_id) with
    | some c => some (mkSourceInfo r c)
    | none => get_chunk_source_info chunk_id rest

/-- C10: the chunk-source lookup returns `None` exactly when the id
occurs in no result's chunk list, and otherwise returns the source info
of the first matching chunk in iteration order (results in order, chunks
within a result in order). -/
theorem claim_C10_chunk_source_lookup (chunk_id : String)
    (results : List ProcessingResult) :
    (get_chunk_source_info chunk_id results = none ↔
      ∀ r ∈ results, ∀ c ∈ r.chunks, c.chunk_id ≠ chunk_id) ∧
    get_chunk_source_info chunk_id results =
      ((results.flatMap fun r => r.chunks.map fun c => (r, c)).find?
          (fun rc => rc.2.chunk_id == chunk_id)).map
        fun rc => mkSourceInfo rc.1 rc.2 := by
  have main : get_chunk_source_info chunk_id results =
      ((results.flatMap fun r => r.chunks.map fun c => (r, c)).find?
          (fun rc => rc.2.chunk_id == chunk_id)).map
        fun rc => mkSourceInfo rc.1 rc.2 := by
    induction results with
    | nil => rfl
    | cons r rest ih =>
      rw [List.flatMap_cons, List.find?_append, List.find?_map]
      rw [get_chunk_source_info]
      have hcomp : ((fun rc : ProcessingResult × ChunkInfo =>
          rc.2.chunk_id == chunk_id) ∘ fun c => (r, c)) =
          fun c => c.chunk_id == chunk_id := rfl
      rw [hcomp]
      generalize r.chunks.find? (fun c => c.chunk_id == chunk_id) = X
      cases X with
      | none =>
        simp only [Option.map_none', Option.none_or]
        exact ih
      | some c => rfl
  refine ⟨?_, main⟩
  rw [main]
  rw [Option.map_eq_none', List.find?_eq_none]
  constructor
  · intro h r hr c hc
    have hxmem : (r, c) ∈ results.flatMap fun r => r.chunks.map fun c => (r, c) :=
      List.mem_flatMap.mpr ⟨r, hr, List.mem_map.mpr ⟨c, hc, rfl⟩⟩
    have hx := h (r, c) hxmem
    simp only [beq_iff_eq] at hx
    exact hx
  · intro h rc hrc
    obtain ⟨r, hr, hmap⟩ := List.mem_flatMap.mp hrc
    obtain ⟨c, hc, hceq⟩ := List.mem_map.mp hmap
    subst hceq
    simp only [beq_iff_eq]
    exact h r hr c hc

end FinRepRAG
